import Mathlib

/-!
Verification of `sage/quivers/homspace.py` (quiver-representation hom spaces).

The module under source control is `homspace.py` alone; the classes `Quiver`,
`QuiverRep`, `QuiverRepHom`, the `UniqueFactory` machinery and the linear
algebra library (`kernel`, `coordinates`, free modules) live elsewhere and are
modelled from the specification where needed.  Matrix entries are taken in ℤ,
a concrete instance of the common base field; Python object identity is
modelled by equality of records that carry an explicit `id` field, so that two
distinct Python objects with equal mathematical content are represented by
records differing only in `id`.
-/

namespace QuiverHomSpec

abbrev Vertex := Nat

/-- Modelled from the spec: an edge of the quiver, a triple
(source, target, label) as used by `DiGraph.edges()`. -/
structure Edge where
  src : Vertex
  tgt : Vertex
  lab : Nat
deriving DecidableEq

/-- Modelled from the spec: a quiver is a directed graph, possibly with
multiple edges; `vertices` is the list returned by `vertices()` and `edges`
the list returned by `edges()`.  `id` models Python object identity. -/
structure Quiver where
  id : Nat
  vertices : List Vertex
  edges : List Edge
deriving DecidableEq

/-- Modelled from the spec: the base ring of the representations; `id` models
Python object identity and `val` the mathematical identity of the ring, so
Python `is` is equality of the whole record and Python `==` is equality of
`val`. -/
structure RingTag where
  id : Nat
  val : Nat
deriving DecidableEq

/-- A matrix with entries in the base field, as returned by `.matrix()`:
`nrows`/`ncols` are the declared dimensions and `rows` the row list.
Entries outside the stored rows default to `0`. -/
structure Mat where
  nrows : Nat
  ncols : Nat
  rows : List (List ℤ)
deriving DecidableEq

def Mat.entry (A : Mat) (i j : Nat) : ℤ := (A.rows.getD i []).getD j 0

def zeroMat (m n : Nat) : Mat :=
  ⟨m, n, List.replicate m (List.replicate n 0)⟩

def idMat (n : Nat) : Mat :=
  ⟨n, n, (List.range n).map (fun r => (List.range n).map
    (fun c => if r = c then (1 : ℤ) else 0))⟩

/-- Modelled from the spec: a representation assigns a vector space to each
vertex (recorded by its dimension, `_spaces[v].dimension()`) and a linear map
to each edge (recorded by its matrix, `_maps[e].matrix()`).  `id` models
Python object identity and `fkey` the representation's `_factory_data[2]`
used by the hom-space factory key. -/
structure QuiverRep where
  id : Nat
  fkey : Nat
  quiver : Quiver
  ring : RingTag
  dims : List (Vertex × Nat)
  maps : List (Edge × Mat)
deriving DecidableEq

def QuiverRep.dimAt (M : QuiverRep) (v : Vertex) : Nat :=
  ((M.dims.find? (fun p => decide (p.1 = v))).map Prod.snd).getD 0

def QuiverRep.mapAt (M : QuiverRep) (e : Edge) : Mat :=
  ((M.maps.find? (fun p => decide (p.1 = e))).map Prod.snd).getD (zeroMat 0 0)

/-- Well-formedness guaranteed by the `Quiver` and `QuiverRep` classes: the
vertex list of the graph has no duplicates, edges run between listed vertices,
and the matrix assigned to an edge `e` maps the space at `e.src` to the space
at `e.tgt` (so it has `dimAt e.src` rows and `dimAt e.tgt` columns). -/
def QuiverRep.WF (M : QuiverRep) : Prop :=
  M.quiver.vertices.Nodup ∧
  (∀ e ∈ M.quiver.edges, e.src ∈ M.quiver.vertices ∧ e.tgt ∈ M.quiver.vertices) ∧
  (∀ e ∈ M.quiver.edges,
    (M.mapAt e).nrows = M.dimAt e.src ∧ (M.mapAt e).ncols = M.dimAt e.tgt)

instance (M : QuiverRep) : Decidable M.WF := by
  unfold QuiverRep.WF; infer_instance

/-- Python `==` on quivers (`DiGraph` equality): same vertices and edges,
regardless of object identity. -/
def quiverPyEq (P Q : Quiver) : Bool :=
  decide (P.vertices = Q.vertices ∧ P.edges = Q.edges)

/-- Python `==` on base rings: mathematical equality of the rings. -/
def ringPyEq (R S : RingTag) : Bool := decide (R.val = S.val)

/-! ## The coefficient matrix built by `QuiverHomSpace_generic.__init__`

Variables are numbered consecutively starting at 0, ordered first by the
vertex the generic matrix occurs at, then by row, then by column. -/

/-- `verts.index(v)` for `verts = domain._quiver.vertices()`. -/
def vertIndex (Q : Quiver) (v : Vertex) : Nat := Q.vertices.indexOf v

/-- The per-vertex block sizes `domain._spaces[v].dimension() *
codomain._spaces[v].dimension()`, in vertex order. -/
def blockSizes (M N : QuiverRep) : List Nat :=
  M.quiver.vertices.map (fun v => M.dimAt v * N.dimAt v)

/-- `varstart[i]`: after the cascading sum in `__init__`, the `i`-th entry of
`varstart` is the sum of the block sizes of the vertices ordered before the
`i`-th one (the code fills slot `index(v) + 1` with the block size of `v` and
then accumulates; with distinct vertices this is exactly the prefix sum). -/
def varstartAt (M N : QuiverRep) (i : Nat) : Nat :=
  ((blockSizes M N).take i).sum

/-- The full `varstart` list of length `len(verts) + 1`. -/
def varstartList (M N : QuiverRep) : List Nat :=
  (List.range (M.quiver.vertices.length + 1)).map (fun i => varstartAt M N i)

/-- `varstart[-1]`, the number of rows of the coefficient matrix. -/
def varstartLast (M N : QuiverRep) : Nat :=
  (varstartList M N).getD M.quiver.vertices.length 0

/-- `eqs`, the number of equations: the sum over all edges of
`domain._spaces[e[0]].dimension() * codomain._spaces[e[1]].dimension()`. -/
def eqs (M N : QuiverRep) : Nat :=
  (M.quiver.edges.map (fun e => M.dimAt e.src * N.dimAt e.tgt)).sum

/-- The writes performed into one column (equation) of the coefficient matrix
for edge `e` and indices `i`, `j`: first, for `k < Y.nrows`, the entry
`Y[k, j]` is written at row `varstart[index(e.src)] + i*Y.nrows + k`; then,
for `k < X.ncols`, the entry `-X[i, k]` is written at row
`varstart[index(e.tgt)] + k*Y.ncols + j`.  The writes happen in this order,
and a later write to the same row replaces the earlier one, exactly as the
assignments `coef_mat[r, eqn] = ...` do. -/
def colWrites (M N : QuiverRep) (e : Edge) (i j : Nat) : List (Nat × ℤ) :=
  (List.range (N.mapAt e).nrows).map
    (fun k => (varstartAt M N (vertIndex M.quiver e.src) + i * (N.mapAt e).nrows + k,
               (N.mapAt e).entry k j))
  ++ (List.range (M.mapAt e).ncols).map
    (fun k => (varstartAt M N (vertIndex M.quiver e.tgt) + k * (N.mapAt e).ncols + j,
               - (M.mapAt e).entry i k))

/-- The equation-filling triple loop of `__init__`: iterate over the edges,
over the rows `i` of `X = domain._maps[e].matrix()` and the columns `j` of
`Y = codomain._maps[e].matrix()`, appending the writes of that equation
(tagged with the current value of the counter `eqn` as their column) and
incrementing `eqn`.  The result is the full trace of writes together with the
final value of `eqn`. -/
def fillTrace (M N : QuiverRep) : List (Nat × Nat × ℤ) × Nat :=
  M.quiver.edges.foldl (fun acc e =>
    (List.range (M.mapAt e).nrows).foldl (fun acc i =>
      (List.range (N.mapAt e).ncols).foldl (fun acc j =>
        (acc.1 ++ (colWrites M N e i j).map (fun w => (w.1, acc.2, w.2)), acc.2 + 1))
        acc) acc) ([], 0)

/-- The value left at position `(r, c)` of a zero-initialised matrix after a
sequence of writes `(row, column, value)` is performed in order: the last
write to `(r, c)` wins, and `0` remains if there is none. -/
def lastWrite (tr : List (Nat × Nat × ℤ)) (r c : Nat) : ℤ :=
  tr.foldl (fun acc w => if w.1 = r ∧ w.2.1 = c then w.2.2 else acc) 0

/-- The coefficient matrix
`coef_mat = Matrix(base_ring, varstart[-1], eqs)` after the filling loop. -/
def coefMat (M N : QuiverRep) : Mat :=
  ⟨varstartLast M N, eqs M N,
    (List.range (varstartLast M N)).map (fun r =>
      (List.range (eqs M N)).map (fun c => lastWrite (fillTrace M N).1 r c))⟩

/-- Modelled from the spec: membership in the kernel submodule computed by the
linear-algebra library.  The matrix acts on the right, the rows correspond to
variables and the columns to equations, so a vector `v` belongs to
`coef_mat.kernel()` iff it has one coordinate per row and its product with
every column is zero. -/
def kernelContains (A : Mat) (v : List ℤ) : Bool :=
  decide (v.length = A.nrows) &&
  (List.range A.ncols).all (fun c =>
    decide ((((List.range A.nrows).map (fun r => v.getD r 0 * A.entry r c)).sum) = 0))

/-! ## Homomorphisms -/

/-- Modelled from the spec: a homomorphism of quiver representations as held
by `QuiverRepHom`: its quiver, domain, codomain and the coordinate vector
`_vector` (one entry per variable of the generic maps, ordered first by
vertex, then by row, then by column). -/
structure QuiverRepHom where
  quiver : Quiver
  domain : QuiverRep
  codomain : QuiverRep
  vector : List ℤ
deriving DecidableEq

/-- The flattening of a choice of one matrix per vertex into a single
coordinate vector, ordered first by vertex, then by row, then by column. -/
def vecOf (M N : QuiverRep) (f : Vertex → Mat) : List ℤ :=
  M.quiver.vertices.flatMap (fun v =>
    (List.range (M.dimAt v)).flatMap (fun r =>
      (List.range (N.dimAt v)).map (fun c => (f v).entry r c)))

/-- The commutativity condition stated by the spec and by the comment in
`__init__`: for each edge `e` with matrices `X` (domain) and `Y` (codomain),
and each `(i, j)`, `Sum_k A_ik * Y_kj = Sum_k X_ik * B_kj`, where `A` is the
vertex map at `e.src` and `B` the vertex map at `e.tgt`.  A tuple of vertex
maps is a homomorphism exactly when this holds for every edge. -/
def commutes (M N : QuiverRep) (f : Vertex → Mat) : Bool :=
  M.quiver.edges.all (fun e =>
    (List.range (M.mapAt e).nrows).all (fun i =>
      (List.range (N.mapAt e).ncols).all (fun j =>
        decide ((((List.range (N.mapAt e).nrows).map
            (fun k => (f e.src).entry i k * (N.mapAt e).entry k j)).sum)
          = (((List.range (M.mapAt e).ncols).map
            (fun k => (M.mapAt e).entry i k * (f e.tgt).entry k j)).sum)))))

/-- Modelled from the spec: the `QuiverRepHom` constructor applied to a
dictionary of vertex maps checks that the maps commute with the edge maps
("an error will be generated if these maps do not commute") and, on success,
stores the flattened coordinate vector. -/
def QuiverRepHom.make (M N : QuiverRep) (f : Vertex → Mat) :
    Except String QuiverRepHom :=
  if commutes M N f then
    .ok ⟨M.quiver, M, N, vecOf M N f⟩
  else
    .error "Data does not define a homomorphism"

/-! ## The hom space -/

/-- Modelled from the spec: the value returned by the library call
`coef_mat.kernel()` — a free submodule presented by an echelonized basis.
`ambient` is the dimension of the ambient space, `basis` the list of basis
vectors (`gens()` of the module) and `pivots` the pivot columns of the
echelonized basis, from which the library reads off coordinates. -/
structure EchelonSpace where
  ambient : Nat
  basis : List (List ℤ)
  pivots : List Nat
deriving DecidableEq

/-- The library guarantee on an echelonized basis: one pivot per basis vector,
and the `i`-th basis vector has entry `1` at the `i`-th pivot and entry `0` at
every other pivot. -/
def EchelonSpace.PivotWF (S : EchelonSpace) : Prop :=
  S.pivots.length = S.basis.length ∧
  ∀ i < S.basis.length, ∀ j < S.pivots.length,
    (S.basis.getD i []).getD (S.pivots.getD j 0) 0 = if i = j then 1 else 0

/-- Modelled from the spec: the library expresses a vector in terms of the
echelonized basis of a free submodule by reading off its entries at the pivot
columns. -/
def EchelonSpace.coordinates (S : EchelonSpace) (v : List ℤ) : List ℤ :=
  S.pivots.map (fun p => v.getD p 0)

/-- The state of a `QuiverHomSpace_generic` object: the private attributes
`_base`, `_quiver`, `_domain`, `_codomain`, `_space` set by `__init__`,
together with a flag recording whether the public attribute `identity` was
bound (which `__init__` does exactly when `domain is codomain`). -/
structure HomSpace where
  base : RingTag
  quiv : Quiver
  dom : QuiverRep
  codom : QuiverRep
  space : EchelonSpace
  hasIdentityAttr : Bool
deriving DecidableEq

/-- The record built by the tail of `__init__` once the validation checks
have passed: `_base = codomain._base_ring`, `_quiver = domain._quiver`,
`_space = coef_mat.kernel()`, and `identity` bound iff `domain is codomain`
(object identity). -/
def mkHomSpace (kernelOf : Mat → EchelonSpace) (domain codomain : QuiverRep) :
    HomSpace :=
  { base := codomain.ring
    quiv := domain.quiver
    dom := domain
    codom := codomain
    space := kernelOf (coefMat domain codomain)
    hasIdentityAttr := decide (domain = codomain) }

/-- `QuiverHomSpace_generic.__init__`: raise a `ValueError` if the quivers of
the two representations are not equal, or if their base rings are not equal;
otherwise build the hom space.  `kernelOf` is the library's kernel
computation, to which `_space = coef_mat.kernel()` is delegated. -/
def QuiverHomSpace_init (kernelOf : Mat → EchelonSpace)
    (domain codomain : QuiverRep) : Except String HomSpace :=
  if quiverPyEq domain.quiver codomain.quiver = false then
    .error "Representations are not over the same quiver."
  else if ringPyEq codomain.ring domain.ring = false then
    .error "Representations are not over the same base ring."
  else
    .ok (mkHomSpace kernelOf domain codomain)

/-! ## Methods of the hom space -/

def HomSpace.base_ring (H : HomSpace) : RingTag := H.base

def HomSpace.quiver (H : HomSpace) : Quiver := H.quiv

def HomSpace.domain (H : HomSpace) : QuiverRep := H.dom

def HomSpace.codomain (H : HomSpace) : QuiverRep := H.codom

/-- `dimension()`: the dimension of `_space`, i.e. the number of elements of
its basis. -/
def HomSpace.dimension (H : HomSpace) : Nat := H.space.basis.length

/-- `gens()`: wrap each generator of `_space` into a `QuiverRepHom` with the
same coordinate vector. -/
def HomSpace.gens (H : HomSpace) : List QuiverRepHom :=
  H.space.basis.map (fun f => ⟨H.dom.quiver, H.dom, H.codom, f⟩)

/-- `coordinates(hom)`: delegate to `_space.coordinates(hom._vector)`. -/
def HomSpace.coordinates (H : HomSpace) (hom : QuiverRepHom) : List ℤ :=
  H.space.coordinates hom.vector

/-- `hom(maps)`: delegate to `QuiverRepHom(domain, codomain, maps)`. -/
def HomSpace.hom (H : HomSpace) (f : Vertex → Mat) : Except String QuiverRepHom :=
  QuiverRepHom.make H.dom H.codom f

/-- `an_element()`: wrap `_space.an_element()` — modelled from the spec as the
first basis vector of the submodule, or the zero vector if the submodule is
trivial. -/
def HomSpace.an_element (H : HomSpace) : QuiverRepHom :=
  ⟨H.dom.quiver, H.dom, H.codom,
    H.space.basis.getD 0 (List.replicate H.space.ambient 0)⟩

/-- The argument of `__contains__`, an arbitrary Python object: either a
`QuiverRepHom` or anything else. -/
inductive PyObject where
  | hom (f : QuiverRepHom)
  | other (x : Nat)
deriving DecidableEq

/-- `__contains__`: return `False` if the argument is not a `QuiverRepHom`;
return `False` if its quiver differs (`!=`, graph equality) or its domain or
codomain differs (`!=` on unique-factory parents, i.e. object identity) from
those of the hom space; otherwise test `map._vector in self._space`, i.e.
membership of the coordinate vector in the kernel of the coefficient
matrix. -/
def HomSpace.containsObj (H : HomSpace) (x : PyObject) : Bool :=
  match x with
  | .other _ => false
  | .hom f =>
    if quiverPyEq H.quiv f.quiver = false ∨ H.dom ≠ f.domain ∨ H.codom ≠ f.codomain
    then false
    else kernelContains (coefMat H.dom H.codom) f.vector

/-- The dictionary of vertex maps built by `_identity`: the identity matrix
`Matrix(dim, dim, 1)` on the domain's space at each vertex. -/
def HomSpace.identityMaps (H : HomSpace) : Vertex → Mat :=
  fun v => idMat (H.dom.dimAt v)

/-- Reading the public attribute `identity` of a hom space: an
`AttributeError` unless `__init__` bound it (which happens exactly when
`domain is codomain`); when bound, it is `_identity`, which returns
`QuiverRepHom(domain, codomain, maps)` for the identity matrices. -/
def HomSpace.accessIdentity (H : HomSpace) : Except String QuiverRepHom :=
  if H.hasIdentityAttr then QuiverRepHom.make H.dom H.codom H.identityMaps
  else .error "AttributeError: identity"

/-- The possible arguments of `_element_constructor_`: an integer or a
dictionary associating matrices to vertices (`None`, the default, is the
`Option.none` case of the caller). -/
inductive ElemData where
  | int (n : Int)
  | dict (entries : List (Vertex × Mat))
deriving DecidableEq

/-- Python `data == 0` for an element-constructor argument: true exactly for
the integer `0` (a dictionary never equals `0`). -/
def dataEqZero : ElemData → Bool
  | .int n => decide (n = 0)
  | .dict _ => false

/-- The vertex maps determined by a dictionary argument: the matrix found for
a vertex, or the zero map for unspecified vertices (modelled from the spec:
"unspecified vertices are assigned the zero map"). -/
def dictMaps (M N : QuiverRep) (entries : List (Vertex × Mat)) : Vertex → Mat :=
  fun v => ((entries.find? (fun p => decide (p.1 = v))).map Prod.snd).getD
    (zeroMat (M.dimAt v) (N.dimAt v))

/-- `_element_constructor_(data=None)`: if `data is None or data == 0`,
replace it by the empty dictionary; then delegate to
`QuiverRepHom(domain, codomain, data)`. -/
def HomSpace.elementConstructor (H : HomSpace) (data : Option ElemData) :
    Except String QuiverRepHom :=
  let d := match data with
    | none => ElemData.dict []
    | some d => if dataEqZero d then ElemData.dict [] else d
  match d with
  | .dict entries => QuiverRepHom.make H.dom H.codom (dictMaps H.dom H.codom entries)
  | .int _ => .error "cannot construct a homomorphism from this data"

/-! ## The factory -/

/-- `QuiverHomSpaceFactory.create_key`: check that the quivers and the base
rings of the two representations are identical (Python `is`, object identity)
and return the pair of the factory keys of domain and codomain. -/
def createKey (domain codomain : QuiverRep) : Except String (Nat × Nat) :=
  if domain.quiver ≠ codomain.quiver then
    .error "The quivers of the domain and codomain must be identical."
  else if domain.ring ≠ codomain.ring then
    .error "The base rings of the domain and codomain must be identical."
  else
    .ok (domain.fkey, codomain.fkey)

/-- Modelled from the spec: the cache of the `UniqueFactory`, mapping keys to
the hom spaces constructed once for them. -/
structure FactoryCache where
  entries : List ((Nat × Nat) × HomSpace)
deriving DecidableEq

def FactoryCache.lookup (c : FactoryCache) (k : Nat × Nat) : Option HomSpace :=
  (c.entries.find? (fun p => decide (p.1 = k))).map Prod.snd

/-- Modelled from the spec: a call of the `QuiverHomSpace` factory.  The key
is computed by `create_key`; if an object is already cached under that key it
is returned unchanged, otherwise `create_object` constructs the hom space
(via `QuiverHomSpace_generic` on the representations determined by the key —
the unique factory for representations returns the very objects `domain` and
`codomain`) and caches it under the key. -/
def factoryCall (kernelOf : Mat → EchelonSpace) (c : FactoryCache)
    (domain codomain : QuiverRep) : Except String (HomSpace × FactoryCache) :=
  match createKey domain codomain with
  | .error msg => .error msg
  | .ok k =>
    match c.lookup k with
    | some H => .ok (H, c)
    | none =>
      match QuiverHomSpace_init kernelOf domain codomain with
      | .error msg => .error msg
      | .ok H => .ok (H, ⟨(k, H) :: c.entries⟩)

/-! ## The denotation of the filling loop

The triple loop enumerates, in order, the triples `(e, i, j)` with `e` an
edge, `i < X.nrows` and `j < Y.ncols`; the `eqn`-th such triple fills the
`eqn`-th column.  The following lemmas compute `fillTrace` in closed form. -/

/-- The list of triples `(e, i, j)` in the order the loop visits them. -/
def eqnTriples (M N : QuiverRep) : List (Edge × Nat × Nat) :=
  M.quiver.edges.flatMap (fun e =>
    (List.range (M.mapAt e).nrows).flatMap (fun i =>
      (List.range (N.mapAt e).ncols).map (fun j => (e, i, j))))

/-- The per-column write lists, in loop order. -/
def colsList (M N : QuiverRep) : List (List (Nat × ℤ)) :=
  (eqnTriples M N).map (fun t => colWrites M N t.1 t.2.1 t.2.2)

/-- Tag each write list of `cs` with its column number, starting at `n`. -/
def tagFrom : Nat → List (List (Nat × ℤ)) → List (Nat × Nat × ℤ)
  | _, [] => []
  | n, c :: cs => c.map (fun w => (w.1, n, w.2)) ++ tagFrom (n + 1) cs

theorem foldl_tagStep (cs : List (List (Nat × ℤ))) (l : List (Nat × Nat × ℤ))
    (n : Nat) :
    cs.foldl (fun acc c =>
        (acc.1 ++ c.map (fun w => (w.1, acc.2, w.2)), acc.2 + 1)) (l, n)
      = (l ++ tagFrom n cs, n + cs.length) := by
  induction cs generalizing l n with
  | nil => simp [tagFrom]
  | cons c cs ih =>
    simp only [List.foldl_cons, ih, tagFrom, List.length_cons]
    have harith : n + 1 + cs.length = n + (cs.length + 1) := by omega
    rw [List.append_assoc, harith]

theorem foldl_flatMap {α β γ : Type} (g : β → α → β) (f : γ → List α)
    (l : List γ) (init : β) :
    (l.flatMap f).foldl g init = l.foldl (fun acc x => (f x).foldl g acc) init := by
  induction l generalizing init with
  | nil => simp
  | cons x l ih => simp [List.flatMap_cons, List.foldl_append, ih]

/-- The loop denotation: the trace of the filling loop consists of the writes
of the columns in loop order, each tagged with its column number, and the
final value of the counter `eqn` is the number of columns visited. -/
theorem fillTrace_eq (M N : QuiverRep) :
    fillTrace M N = (tagFrom 0 (colsList M N), (colsList M N).length) := by
  have h1 : fillTrace M N
      = (eqnTriples M N).foldl (fun acc t =>
          (acc.1 ++ (colWrites M N t.1 t.2.1 t.2.2).map (fun w => (w.1, acc.2, w.2)),
            acc.2 + 1)) ([], 0) := by
    rw [eqnTriples, foldl_flatMap]
    unfold fillTrace
    congr 1
    funext acc e
    rw [foldl_flatMap]
    congr 1
    funext acc' i
    rw [List.foldl_map]
  have h2 : (colsList M N).foldl (fun acc c =>
        (acc.1 ++ c.map (fun w => (w.1, acc.2, w.2)), acc.2 + 1)) ([], 0)
      = (eqnTriples M N).foldl (fun acc t =>
          (acc.1 ++ (colWrites M N t.1 t.2.1 t.2.2).map (fun w => (w.1, acc.2, w.2)),
            acc.2 + 1)) ([], 0) := by
    rw [colsList, List.foldl_map]
  rw [h1, ← h2, foldl_tagStep]
  simp

/-- Every write in `tagFrom n cs` is a write of one of the lists of `cs`,
tagged with the column number of that list. -/
theorem mem_tagFrom {w : Nat × Nat × ℤ} {cs : List (List (Nat × ℤ))} {n : Nat}
    (h : w ∈ tagFrom n cs) :
    ∃ k, k < cs.length ∧ w.2.1 = n + k ∧ (w.1, w.2.2) ∈ cs.getD k [] := by
  induction cs generalizing n with
  | nil => simp [tagFrom] at h
  | cons c cs ih =>
    rw [tagFrom, List.mem_append] at h
    rcases h with h | h
    · rcases List.mem_map.1 h with ⟨u, hu, rfl⟩
      exact ⟨0, by simp, by simp, by simpa using hu⟩
    · rcases ih h with ⟨k, hk, hcol, hmem⟩
      exact ⟨k + 1, by simpa using hk, by omega, by simpa using hmem⟩

/-- Columns tagged below the starting number receive no write. -/
theorem filter_tagFrom_lt (cs : List (List (Nat × ℤ))) (n c : Nat) (h : c < n) :
    (tagFrom n cs).filter (fun w => decide (w.2.1 = c)) = [] := by
  induction cs generalizing n with
  | nil => simp [tagFrom]
  | cons d cs ih =>
    rw [tagFrom, List.filter_append]
    rw [List.filter_map]
    have h1 : (d.filter ((fun w => decide (w.2.1 = c)) ∘ (fun w => (w.1, n, w.2)))) = [] := by
      apply List.filter_eq_nil_iff.2
      intro a _
      simp only [Function.comp]
      simp
      omega
    rw [h1, ih (n + 1) (by omega)]
    simp

/-- The writes tagged with column `n + k` are exactly the writes of the
`k`-th list after the starting point. -/
theorem filter_tagFrom (cs : List (List (Nat × ℤ))) (n k : Nat)
    (h : k < cs.length) :
    (tagFrom n cs).filter (fun w => decide (w.2.1 = n + k))
      = (cs.getD k []).map (fun w => (w.1, n + k, w.2)) := by
  induction cs generalizing n k with
  | nil => simp at h
  | cons d cs ih =>
    rw [tagFrom, List.filter_append, List.filter_map]
    cases k with
    | zero =>
      have h1 : ((fun w => decide (w.2.1 = n + 0)) ∘ (fun w : Nat × ℤ => (w.1, n, w.2)))
          = fun _ => true := by
        funext w; simp
      rw [h1, List.filter_true, filter_tagFrom_lt cs (n + 1) (n + 0) (by omega)]
      simp
    | succ k =>
      have h1 : (d.filter ((fun w => decide (w.2.1 = n + (k + 1))) ∘
          (fun w : Nat × ℤ => (w.1, n, w.2)))) = [] := by
        apply List.filter_eq_nil_iff.2
        intro a _
        simp only [Function.comp]
        simp
      rw [h1]
      have h2 : n + (k + 1) = (n + 1) + k := by omega
      rw [h2, ih (n + 1) k (by simpa using h)]
      simp

/-! ## Counting rows and columns -/

/-- `varstart[-1]` is the sum of all the per-vertex block sizes
`dim(M_v) * dim(N_v)`. -/
theorem varstartLast_eq_sum (M N : QuiverRep) :
    varstartLast M N = (blockSizes M N).sum := by
  have hlen : M.quiver.vertices.length < (List.range (M.quiver.vertices.length + 1)).length := by
    simp
  have h : varstartList M N = (List.range (M.quiver.vertices.length + 1)).map
      (fun i => varstartAt M N i) := rfl
  rw [varstartLast, h, List.getD_eq_getElem?_getD, List.getElem?_map]
  simp only [List.getElem?_range (by omega : M.quiver.vertices.length <
    M.quiver.vertices.length + 1)]
  have hfull : (blockSizes M N).take M.quiver.vertices.length = blockSizes M N := by
    apply List.take_of_length_le
    simp [blockSizes]
  simp [varstartAt, hfull]

theorem sum_const_range (m d : Nat) :
    ((List.range m).map (fun _ => d)).sum = m * d := by
  induction m with
  | zero => simp
  | succ m ih =>
    rw [List.range_succ, List.map_append, List.sum_append, ih]
    simp [Nat.succ_mul]

/-- The number of triples visited by the loop equals, under the shape
guarantees on the two representations (over equal quivers), the declared
number of equations `eqs`. -/
theorem eqnTriples_length (M N : QuiverRep) (hM : M.WF) (hN : N.WF)
    (hq : quiverPyEq M.quiver N.quiver = true) :
    (eqnTriples M N).length = eqs M N := by
  have hedges : M.quiver.edges = N.quiver.edges := by
    simpa [quiverPyEq] using And.right (by simpa [quiverPyEq] using hq)
  rw [eqnTriples, List.flatMap, List.length_flatten, List.map_map, eqs]
  congr 1
  apply List.map_congr_left
  intro e he
  have hX := (hM.2.2 e he).1
  have hY := (hN.2.2 e (by rw [← hedges]; exact he)).2
  simp only [Function.comp, List.flatMap, List.length_flatten, List.map_map,
    List.length_map, List.length_range, hX, hY]
  have hc : (List.length ∘ fun i => List.map (fun j => (e, i, j))
      (List.range (N.dimAt e.tgt))) = fun _ : Nat => N.dimAt e.tgt := by
    funext i
    simp [Function.comp]
  rw [hc]
  exact sum_const_range (M.dimAt e.src) (N.dimAt e.tgt)

theorem colsList_length (M N : QuiverRep) :
    (colsList M N).length = (eqnTriples M N).length := by
  simp [colsList]

/-- Characterisation of the triples visited by the loop. -/
theorem mem_eqnTriples {M N : QuiverRep} {t : Edge × Nat × Nat}
    (h : t ∈ eqnTriples M N) :
    t.1 ∈ M.quiver.edges ∧ t.2.1 < (M.mapAt t.1).nrows ∧
      t.2.2 < (N.mapAt t.1).ncols := by
  rw [eqnTriples] at h
  rcases List.mem_flatMap.1 h with ⟨e, he, h2⟩
  rcases List.mem_flatMap.1 h2 with ⟨i, hi, h3⟩
  rcases List.mem_map.1 h3 with ⟨j, hj, rfl⟩
  exact ⟨he, List.mem_range.1 hi, List.mem_range.1 hj⟩

/-! ## Bounds on the write positions -/

theorem addmul_lt {i m k d : Nat} (hi : i < m) (hk : k < d) :
    i * d + k < m * d := by
  calc i * d + k < i * d + d := by omega
  _ = (i + 1) * d := by ring
  _ ≤ m * d := Nat.mul_le_mul_right d hi

/-- A position inside the block of a listed vertex lies below the total
number of rows. -/
theorem varstart_block_lt {M N : QuiverRep} {v : Vertex} {off : Nat}
    (hv : v ∈ M.quiver.vertices) (hoff : off < M.dimAt v * N.dimAt v) :
    varstartAt M N (vertIndex M.quiver v) + off < (blockSizes M N).sum := by
  have hidx : vertIndex M.quiver v < M.quiver.vertices.length :=
    List.indexOf_lt_length.2 hv
  have hidx' : vertIndex M.quiver v < (blockSizes M N).length := by
    simpa [blockSizes] using hidx
  have hvget : M.quiver.vertices[vertIndex M.quiver v] = v :=
    List.getElem_indexOf hidx
  have hget : (blockSizes M N)[vertIndex M.quiver v] = M.dimAt v * N.dimAt v := by
    simp only [blockSizes, List.getElem_map, hvget]
  have hsucc : ((blockSizes M N).take (vertIndex M.quiver v + 1)).sum
      = varstartAt M N (vertIndex M.quiver v) + M.dimAt v * N.dimAt v := by
    rw [varstartAt, List.sum_take_succ _ _ hidx']
    simp [hget]
  have hle : ((blockSizes M N).take (vertIndex M.quiver v + 1)).sum
      ≤ (blockSizes M N).sum := by
    conv_rhs => rw [← List.take_append_drop (vertIndex M.quiver v + 1) (blockSizes M N)]
    rw [List.sum_append]
    omega
  omega

/-- Any write performed for a triple the loop actually visits has its row
below `varstart[-1]`. -/
theorem colWrites_row_lt {M N : QuiverRep} {e : Edge} {i j : Nat}
    (hM : M.WF) (hN : N.WF) (hq : quiverPyEq M.quiver N.quiver = true)
    (he : e ∈ M.quiver.edges) (hi : i < (M.mapAt e).nrows)
    (hj : j < (N.mapAt e).ncols) {w : Nat × ℤ} (hw : w ∈ colWrites M N e i j) :
    w.1 < (blockSizes M N).sum := by
  have hedges : M.quiver.edges = N.quiver.edges := by
    simpa [quiverPyEq] using And.right (by simpa [quiverPyEq] using hq)
  have heN : e ∈ N.quiver.edges := by rw [← hedges]; exact he
  have hXr := (hM.2.2 e he).1
  have hXc := (hM.2.2 e he).2
  have hYr := (hN.2.2 e heN).1
  have hYc := (hN.2.2 e heN).2
  rw [colWrites, List.mem_append] at hw
  rcases hw with hw | hw
  · rcases List.mem_map.1 hw with ⟨k, hk, rfl⟩
    have hk' : k < (N.mapAt e).nrows := List.mem_range.1 hk
    have hoff : i * (N.mapAt e).nrows + k < M.dimAt e.src * N.dimAt e.src := by
      rw [← hXr, ← hYr]
      exact addmul_lt hi hk'
    have h := varstart_block_lt (hM.2.1 e he).1 hoff
    simpa [Nat.add_assoc] using h
  · rcases List.mem_map.1 hw with ⟨k, hk, rfl⟩
    have hk' : k < (M.mapAt e).ncols := List.mem_range.1 hk
    have hoff : k * (N.mapAt e).ncols + j < M.dimAt e.tgt * N.dimAt e.tgt := by
      rw [← hXc, ← hYc]
      exact addmul_lt hk' hj
    have h := varstart_block_lt (hM.2.1 e he).2 hoff
    simpa [Nat.add_assoc] using h

/-- Every write of the filling loop stays inside the allocated coefficient
matrix: its row is below `varstart[-1]` and its column below `eqs` (so no
write raises an index error). -/
theorem fillTrace_bounds {M N : QuiverRep} (hM : M.WF) (hN : N.WF)
    (hq : quiverPyEq M.quiver N.quiver = true) {w : Nat × Nat × ℤ}
    (hw : w ∈ (fillTrace M N).1) :
    w.1 < (coefMat M N).nrows ∧ w.2.1 < (coefMat M N).ncols := by
  rw [fillTrace_eq] at hw
  rcases mem_tagFrom hw with ⟨k, hk, hcol, hmem⟩
  have hk' : k < (eqnTriples M N).length := by
    rwa [colsList_length] at hk
  have hgetD : (colsList M N).getD k []
      = colWrites M N ((eqnTriples M N)[k]).1
          ((eqnTriples M N)[k]).2.1 ((eqnTriples M N)[k]).2.2 := by
    rw [colsList, List.getD_eq_getElem?_getD, List.getElem?_map]
    rw [List.getElem?_eq_getElem hk']
    simp
  have htr : (eqnTriples M N)[k] ∈ eqnTriples M N := List.getElem_mem hk'
  rcases mem_eqnTriples htr with ⟨he, hi, hj⟩
  constructor
  · have := colWrites_row_lt hM hN hq he hi hj (by rw [hgetD] at hmem; exact hmem)
    rw [coefMat]
    simpa [varstartLast_eq_sum] using this
  · rw [coefMat]
    have : k < eqs M N := by rw [← eqnTriples_length M N hM hN hq]; exact hk'
    simp only [hcol]
    omega

/-! ## State-passing readings of the data methods

The methods below perform no assignment to any attribute of `self` in the
source; their state-passing translation therefore returns the hom space they
leave behind next to their result. -/

def HomSpace.dimensionSt (H : HomSpace) : Nat × HomSpace := (H.dimension, H)

def HomSpace.gensSt (H : HomSpace) : List QuiverRepHom × HomSpace := (H.gens, H)

def HomSpace.coordinatesSt (H : HomSpace) (f : QuiverRepHom) :
    List ℤ × HomSpace := (H.coordinates f, H)

def HomSpace.homSt (H : HomSpace) (f : Vertex → Mat) :
    Except String QuiverRepHom × HomSpace := (H.hom f, H)

def HomSpace.an_elementSt (H : HomSpace) : QuiverRepHom × HomSpace :=
  (H.an_element, H)

def HomSpace.containsSt (H : HomSpace) (x : PyObject) : Bool × HomSpace :=
  (H.containsObj x, H)

/-! ## The zero homomorphism -/

theorem zeroMat_entry (m n i j : Nat) : (zeroMat m n).entry i j = 0 := by
  show ((List.replicate m (List.replicate n 0)).getD i []).getD j 0 = 0
  rcases Nat.lt_or_ge i m with h | h
  · rw [List.getD_eq_getElem?_getD (List.replicate m (List.replicate n 0)) i []]
    rw [List.getElem?_replicate, if_pos h]
    show (List.replicate n (0 : ℤ)).getD j 0 = 0
    rw [List.getD_eq_getElem?_getD, List.getElem?_replicate]
    split <;> rfl
  · rw [List.getD_eq_getElem?_getD (List.replicate m (List.replicate n 0)) i []]
    rw [List.getElem?_replicate, if_neg (Nat.not_lt.2 h)]
    rfl

theorem dictMaps_nil (M N : QuiverRep) (v : Vertex) :
    dictMaps M N [] v = zeroMat (M.dimAt v) (N.dimAt v) := rfl

/-- The zero vertex maps commute with every pair of edge maps. -/
theorem commutes_zero (M N : QuiverRep) :
    commutes M N (dictMaps M N []) = true := by
  rw [commutes, List.all_eq_true]
  intro e _
  rw [List.all_eq_true]
  intro i _
  rw [List.all_eq_true]
  intro j _
  simp only [decide_eq_true_eq]
  have h1 : ((List.range (N.mapAt e).nrows).map
      (fun k => (dictMaps M N [] e.src).entry i k * (N.mapAt e).entry k j)).sum = 0 := by
    apply List.sum_eq_zero
    intro x hx
    rcases List.mem_map.1 hx with ⟨k, _, rfl⟩
    rw [dictMaps_nil, zeroMat_entry, zero_mul]
  have h2 : ((List.range (M.mapAt e).ncols).map
      (fun k => (M.mapAt e).entry i k * (dictMaps M N [] e.tgt).entry k j)).sum = 0 := by
    apply List.sum_eq_zero
    intro x hx
    rcases List.mem_map.1 hx with ⟨k, _, rfl⟩
    rw [dictMaps_nil, zeroMat_entry, mul_zero]
  rw [h1, h2]

/-- The flattened vector of any family of vertex maps has one coordinate per
variable, i.e. length `varstart[-1]`. -/
theorem vecOf_length (M N : QuiverRep) (f : Vertex → Mat) :
    (vecOf M N f).length = varstartLast M N := by
  rw [vecOf, varstartLast_eq_sum, List.flatMap, List.length_flatten, List.map_map,
    blockSizes]
  congr 1
  apply List.map_congr_left
  intro v _
  simp only [Function.comp, List.flatMap, List.length_flatten, List.map_map,
    List.length_map, List.length_range]
  have hc : (List.length ∘ fun r => List.map (fun c => (f v).entry r c)
      (List.range (N.dimAt v))) = fun _ : Nat => N.dimAt v := by
    funext r
    simp [Function.comp]
  rw [hc]
  exact sum_const_range (M.dimAt v) (N.dimAt v)

/-- The flattened vector of the zero vertex maps is the zero vector. -/
theorem vecOf_zero (M N : QuiverRep) :
    vecOf M N (dictMaps M N []) = List.replicate (varstartLast M N) 0 := by
  apply List.eq_replicate_iff.mpr
  refine ⟨vecOf_length M N _, ?_⟩
  intro b hb
  rw [vecOf] at hb
  rcases List.mem_flatMap.1 hb with ⟨v, _, hb⟩
  rcases List.mem_flatMap.1 hb with ⟨r, _, hb⟩
  rcases List.mem_map.1 hb with ⟨c, _, rfl⟩
  rw [dictMaps_nil, zeroMat_entry]

/-! ## Concrete instances

`loopQuiver` is the one-vertex quiver with a single loop edge; over it the
two inner `k`-loops of the filling loop write into the same per-vertex block,
so the second family of assignments can overwrite the first. -/

/-- A trivial stand-in for the library's kernel computation; the claims that
use it never inspect the `_space` data. -/
def trivKernel : Mat → EchelonSpace := fun _ => ⟨0, [], []⟩

def loopQuiver : Quiver := ⟨0, [1], [⟨1, 1, 0⟩]⟩

/-- Domain of the counterexample to `kernel = hom space`: one-dimensional
space at the vertex, loop map `X = [[0]]`. -/
def bugDom : QuiverRep :=
  ⟨10, 10, loopQuiver, ⟨0, 0⟩, [(1, 1)], [(⟨1, 1, 0⟩, ⟨1, 1, [[0]]⟩)]⟩

/-- Codomain of the counterexample: loop map `Y = [[1]]`. -/
def bugCod : QuiverRep :=
  ⟨11, 11, loopQuiver, ⟨0, 0⟩, [(1, 1)], [(⟨1, 1, 0⟩, ⟨1, 1, [[1]]⟩)]⟩

/-- The candidate vertex map `A = [[1]]` at the unique vertex. -/
def bugMap : Vertex → Mat := fun _ => ⟨1, 1, [[1]]⟩

/-- A representation of the loop quiver with loop map `X = [[1]]`, used as
both domain and codomain (the same object). -/
def selfRep : QuiverRep :=
  ⟨12, 12, loopQuiver, ⟨0, 0⟩, [(1, 1)], [(⟨1, 1, 0⟩, ⟨1, 1, [[1]]⟩)]⟩

/-- The hom space `Hom(selfRep, selfRep)`. -/
def homSelf : HomSpace := mkHomSpace trivKernel selfRep selfRep

/-- The identity homomorphism of `selfRep`, as `_identity` builds it. -/
def idHomSelf : QuiverRepHom := ⟨loopQuiver, selfRep, selfRep, [1]⟩

def dummyQuiver : Quiver := ⟨100, [], []⟩

def dummyRep : QuiverRep := ⟨100, 100, dummyQuiver, ⟨0, 0⟩, [], []⟩

def dummyHom : QuiverRepHom := ⟨dummyQuiver, dummyRep, dummyRep, []⟩

/-- A kernel stand-in returning a one-dimensional echelonized space. -/
def oneKernel : Mat → EchelonSpace := fun _ => ⟨0, [[1]], [0]⟩

/-- A quiver with one vertex and no edge, over which every vertex map is a
homomorphism. -/
def twinQuiver : Quiver := ⟨200, [1], []⟩

/-- Two representations that are mathematically equal but are distinct
objects: they differ only in their object identity. -/
def eqTwinDom : QuiverRep := ⟨201, 201, twinQuiver, ⟨0, 0⟩, [(1, 1)], []⟩

def eqTwinCod : QuiverRep := ⟨202, 202, twinQuiver, ⟨0, 0⟩, [(1, 1)], []⟩

def twinHomSpace : HomSpace := mkHomSpace trivKernel eqTwinDom eqTwinCod

/-- The identity map between the twin representations, as `_identity` would
build it. -/
def idHomTwin : QuiverRepHom :=
  ⟨twinQuiver, eqTwinDom, eqTwinCod, vecOf eqTwinDom eqTwinCod twinHomSpace.identityMaps⟩

/-! ## The claims -/

/-- C1: the claim states that a tuple of vertex maps lies in the kernel of
the assembled coefficient matrix if and only if it commutes with every edge
map, so that the kernel is the entire homomorphism space.  This fails on the
code: over the one-vertex quiver with a loop edge, with domain edge map
`X = [[0]]` and codomain edge map `Y = [[1]]`, the source-block write of
`Y[0,0]` and the target-block write of `-X[0,0]` land on the same matrix
position (the blocks of source and target coincide), the second assignment
overwrites the first, and the resulting column is `[0]` instead of encoding
`A·Y - X·A`.  The vertex map `A = [[1]]` therefore lies in the kernel of the
coefficient matrix although it does not commute with the edge maps
(`A·Y = [[1]] ≠ [[0]] = X·A`), contradicting the equation
`Sum_k A_ik*Y_kj - Sum_k X_ik*B_kj == 0` stated in the code's own comment. -/
theorem C1_kernel_strictly_larger_than_hom_space :
    QuiverHomSpace_init trivKernel bugDom bugCod
        = Except.ok (mkHomSpace trivKernel bugDom bugCod) ∧
    bugDom.WF ∧ bugCod.WF ∧
    (coefMat bugDom bugCod).rows = [[0]] ∧
    kernelContains (coefMat bugDom bugCod) (vecOf bugDom bugCod bugMap) = true ∧
    commutes bugDom bugCod bugMap = false :=
  ⟨rfl, by decide, by decide, by decide, by decide, by decide⟩

/-- C4: the claim states that for a hom space whose domain and codomain are
the same representation, the identity map returned by `identity` is an
element of the hom space (its vector lies in the kernel space and
`__contains__` returns `True`).  This fails on the code: for the
representation of the one-vertex loop quiver with edge map `X = [[1]]`, the
overwrite described in the loop-edge analysis leaves the single column as
`[-1]`, so the identity map's coordinate vector `[1]` is not in the kernel
and `__contains__` returns `False`, although `identity` is bound
(domain is codomain), `_identity` successfully builds the identity map, and
that map genuinely commutes with the edge maps. -/
theorem C4_identity_map_rejected_by_hom_space :
    QuiverHomSpace_init trivKernel selfRep selfRep = Except.ok homSelf ∧
    homSelf.hasIdentityAttr = true ∧
    homSelf.accessIdentity = Except.ok idHomSelf ∧
    commutes selfRep selfRep homSelf.identityMaps = true ∧
    (coefMat selfRep selfRep).rows = [[-1]] ∧
    kernelContains (coefMat selfRep selfRep) idHomSelf.vector = false ∧
    homSelf.containsObj (PyObject.hom idHomSelf) = false :=
  ⟨rfl, by decide, by rfl, by decide, by decide, by decide, by decide⟩

/-- C2: construction of a hom space raises a `ValueError` if and only if the
quivers of the domain and codomain differ or their base rings differ — for
the factory's `create_key` "differ" is object identity (`is not`), for
`QuiverHomSpace_generic.__init__` it is equality (`!=`) — and under the
precondition that both match, construction succeeds; no other error can be
raised, since every write of the filling loop stays inside the allocated
`varstart[-1] × eqs` coefficient matrix. -/
theorem C2_construction_errors (M N : QuiverRep) (kernelOf : Mat → EchelonSpace) :
    ((∃ k, createKey M N = Except.ok k) ↔ (M.quiver = N.quiver ∧ M.ring = N.ring)) ∧
    ((∃ H, QuiverHomSpace_init kernelOf M N = Except.ok H) ↔
      (quiverPyEq M.quiver N.quiver = true ∧ ringPyEq N.ring M.ring = true)) ∧
    (M.WF → N.WF → quiverPyEq M.quiver N.quiver = true →
      ∀ w ∈ (fillTrace M N).1,
        w.1 < (coefMat M N).nrows ∧ w.2.1 < (coefMat M N).ncols) := by
  refine ⟨?_, ?_, ?_⟩
  · constructor
    · rintro ⟨k, hk⟩
      rw [createKey] at hk
      by_cases h1 : M.quiver = N.quiver
      · by_cases h2 : M.ring = N.ring
        · exact ⟨h1, h2⟩
        · simp [h1, h2] at hk
      · simp [h1] at hk
    · rintro ⟨h1, h2⟩
      exact ⟨(M.fkey, N.fkey), by simp [createKey, h1, h2]⟩
  · constructor
    · rintro ⟨H, hH⟩
      rw [QuiverHomSpace_init] at hH
      by_cases h1 : quiverPyEq M.quiver N.quiver = true
      · by_cases h2 : ringPyEq N.ring M.ring = true
        · exact ⟨h1, h2⟩
        · rw [Bool.not_eq_true] at h2
          simp [h1, h2] at hH
      · rw [Bool.not_eq_true] at h1
        simp [h1] at hH
    · rintro ⟨h1, h2⟩
      refine ⟨mkHomSpace kernelOf M N, ?_⟩
      simp [QuiverHomSpace_init, h1, h2]
  · intro hM hN hq w hw
    exact fillTrace_bounds hM hN hq hw

/-- C2 witness: over the loop quiver, construction through the factory and
through `__init__` succeeds for identical quiver and ring, and the first
write of the filling loop lies inside the coefficient matrix. -/
theorem C2_construction_errors_witness :
    (∃ k, createKey selfRep selfRep = Except.ok k) ∧
    ((0, 0, (1 : ℤ)).1 < (coefMat selfRep selfRep).nrows ∧
      (0, 0, (1 : ℤ)).2.1 < (coefMat selfRep selfRep).ncols) :=
  ⟨(C2_construction_errors selfRep selfRep trivKernel).1.mpr ⟨rfl, rfl⟩,
    (C2_construction_errors selfRep selfRep trivKernel).2.2
      (by decide) (by decide) (by decide) (0, 0, (1 : ℤ)) (by decide)⟩

/-- C3: for well-formed representations over the same quiver, the coefficient
matrix has `sum_v dim(M_v)*dim(N_v)` rows and
`sum_e dim(M_src(e))*dim(N_tgt(e))` columns, the equation counter `eqn` ends
exactly at the number of columns, and each column receives the writes of
exactly one `(edge, row, column)` iteration of the triple loop. -/
theorem C3_matrix_dimensions_and_filling (M N : QuiverRep)
    (hM : M.WF) (hN : N.WF) (hq : quiverPyEq M.quiver N.quiver = true) :
    (coefMat M N).nrows
        = (M.quiver.vertices.map (fun v => M.dimAt v * N.dimAt v)).sum ∧
    (coefMat M N).ncols
        = (M.quiver.edges.map (fun e => M.dimAt e.src * N.dimAt e.tgt)).sum ∧
    (fillTrace M N).2 = (coefMat M N).ncols ∧
    ∀ c < (coefMat M N).ncols,
      (fillTrace M N).1.filter (fun w => decide (w.2.1 = c))
        = ((colsList M N).getD c []).map (fun w => (w.1, c, w.2)) := by
  have hcols : (coefMat M N).ncols = eqs M N := rfl
  have hlen : (colsList M N).length = eqs M N := by
    rw [colsList_length]
    exact eqnTriples_length M N hM hN hq
  refine ⟨?_, ?_, ?_, ?_⟩
  · rw [show (coefMat M N).nrows = varstartLast M N from rfl, varstartLast_eq_sum]
    rfl
  · rfl
  · rw [fillTrace_eq, hcols]
    exact hlen
  · intro c hc
    rw [fillTrace_eq]
    have hc' : c < (colsList M N).length := by rw [hlen]; exact hc
    have h := filter_tagFrom (colsList M N) 0 c hc'
    simpa using h

/-- C3 witness: the dimension bookkeeping evaluated on the loop-quiver
instance. -/
theorem C3_matrix_dimensions_and_filling_witness :
    (coefMat selfRep selfRep).nrows
        = (selfRep.quiver.vertices.map
            (fun v => selfRep.dimAt v * selfRep.dimAt v)).sum ∧
    (fillTrace selfRep selfRep).2 = (coefMat selfRep selfRep).ncols ∧
    (fillTrace selfRep selfRep).1.filter (fun w => decide (w.2.1 = 0))
      = ((colsList selfRep selfRep).getD 0 []).map (fun w => (w.1, 0, w.2)) :=
  ⟨(C3_matrix_dimensions_and_filling selfRep selfRep
      (by decide) (by decide) (by decide)).1,
    (C3_matrix_dimensions_and_filling selfRep selfRep
      (by decide) (by decide) (by decide)).2.2.1,
    (C3_matrix_dimensions_and_filling selfRep selfRep
      (by decide) (by decide) (by decide)).2.2.2 0 (by decide)⟩

/-- C5: every successfully constructed hom space has domain and codomain over
the same quiver and base ring; `quiver()` returns the domain's quiver, which
equals the codomain's; `base_ring()` returns the codomain's ring, which
equals the domain's; `domain()` and `codomain()` return the representations
given at construction; and none of the data methods (`dimension`, `gens`,
`coordinates`, `hom`, `an_element`, `__contains__`) modifies the hom space:
their state-passing readings leave it unchanged. -/
theorem C5_invariants (kernelOf : Mat → EchelonSpace) (M N : QuiverRep)
    (H : HomSpace) (h : QuiverHomSpace_init kernelOf M N = Except.ok H) :
    quiverPyEq M.quiver N.quiver = true ∧ ringPyEq M.ring N.ring = true ∧
    H.quiver = M.quiver ∧ quiverPyEq H.quiver N.quiver = true ∧
    H.base_ring = N.ring ∧ ringPyEq H.base_ring M.ring = true ∧
    H.domain = M ∧ H.codomain = N ∧
    H.dimensionSt.2 = H ∧ H.gensSt.2 = H ∧
    (∀ f, (H.coordinatesSt f).2 = H) ∧ (∀ f, (H.homSt f).2 = H) ∧
    H.an_elementSt.2 = H ∧ (∀ x, (H.containsSt x).2 = H) := by
  rw [QuiverHomSpace_init] at h
  by_cases h1 : quiverPyEq M.quiver N.quiver = true
  · by_cases h2 : ringPyEq N.ring M.ring = true
    · rw [if_neg (by simp [h1]), if_neg (by simp [h2])] at h
      have hH : H = mkHomSpace kernelOf M N := by
        injection h with h
        exact h.symm
      subst hH
      refine ⟨h1, ?_, rfl, ?_, rfl, ?_, rfl, rfl, rfl, rfl,
        fun _ => rfl, fun _ => rfl, rfl, fun _ => rfl⟩
      · simp only [ringPyEq, decide_eq_true_eq] at h2 ⊢
        omega
      · exact h1
      · exact h2
    · rw [Bool.not_eq_true] at h2
      rw [if_neg (by simp [h1]), if_pos (by simp [h2])] at h
      exact absurd h (by simp)
  · rw [Bool.not_eq_true] at h1
    rw [if_pos (by simp [h1])] at h
    exact absurd h (by simp)

/-- C5 witness: the invariants evaluated on a concrete hom space. -/
theorem C5_invariants_witness :
    homSelf.quiver = selfRep.quiver ∧ homSelf.domain = selfRep ∧
    homSelf.codomain = selfRep ∧ homSelf.dimensionSt.2 = homSelf :=
  ⟨(C5_invariants trivKernel selfRep selfRep homSelf rfl).2.2.1,
    (C5_invariants trivKernel selfRep selfRep homSelf rfl).2.2.2.2.2.2.1,
    (C5_invariants trivKernel selfRep selfRep homSelf rfl).2.2.2.2.2.2.2.1,
    (C5_invariants trivKernel selfRep selfRep homSelf rfl).2.2.2.2.2.2.2.2.1⟩

/-- C6: hom spaces are constructed once and cached: `create_key` is a
deterministic function returning the pair of the factory keys of domain and
codomain, and after a factory call has produced a hom space and cache, a
second call with the same domain and codomain returns the very same hom-space
object and leaves the cache unchanged. -/
theorem C6_factory_caching (kernelOf : Mat → EchelonSpace) (c0 : FactoryCache)
    (M N : QuiverRep) (H : HomSpace) (c1 : FactoryCache)
    (h : factoryCall kernelOf c0 M N = Except.ok (H, c1)) :
    factoryCall kernelOf c1 M N = Except.ok (H, c1) ∧
    createKey M N = Except.ok (M.fkey, N.fkey) := by
  rw [factoryCall] at h
  split at h
  · exact absurd h (by simp)
  · rename_i k hk
    have hkval : k = (M.fkey, N.fkey) := by
      rw [createKey] at hk
      by_cases hq : M.quiver = N.quiver
      · by_cases hr : M.ring = N.ring
        · rw [if_neg (by simp [hq]), if_neg (by simp [hr])] at hk
          injection hk with hk
          exact hk.symm
        · rw [if_neg (by simp [hq]), if_pos hr] at hk
          exact absurd hk (by simp)
      · rw [if_pos hq] at hk
        exact absurd hk (by simp)
    subst hkval
    refine ⟨?_, hk⟩
    split at h
    · rename_i H0 hl
      injection h with h
      have hH : H0 = H := congrArg Prod.fst h
      have hc : c0 = c1 := congrArg Prod.snd h
      subst hH
      subst hc
      simp [factoryCall, hk, hl]
    · rename_i hl
      split at h
      · exact absurd h (by simp)
      · rename_i Hn hi
        injection h with h
        have hH : Hn = H := congrArg Prod.fst h
        have hc : (⟨((M.fkey, N.fkey), Hn) :: c0.entries⟩ : FactoryCache) = c1 :=
          congrArg Prod.snd h
        have hlook : c1.lookup (M.fkey, N.fkey) = some H := by
          rw [← hc, FactoryCache.lookup]
          simp [List.find?, hH]
        simp [factoryCall, hk, hlook]

/-- C6 witness: a concrete factory call cached and replayed. -/
theorem C6_factory_caching_witness :
    factoryCall trivKernel ⟨[((selfRep.fkey, selfRep.fkey), homSelf)]⟩
        selfRep selfRep
      = Except.ok (homSelf, ⟨[((selfRep.fkey, selfRep.fkey), homSelf)]⟩) ∧
    createKey selfRep selfRep = Except.ok (selfRep.fkey, selfRep.fkey) :=
  C6_factory_caching trivKernel ⟨[]⟩ selfRep selfRep homSelf
    ⟨[((selfRep.fkey, selfRep.fkey), homSelf)]⟩ rfl

/-- C7: on any constructed hom space whose kernel space carries an
echelonized basis with its pivot data (the library guarantee), taking
coordinates of the `i`-th generator yields the `i`-th standard coordinate
list: `1` in position `i` and `0` elsewhere. -/
theorem C7_coordinates_of_gens (kernelOf : Mat → EchelonSpace)
    (M N : QuiverRep) (H : HomSpace)
    (h : QuiverHomSpace_init kernelOf M N = Except.ok H)
    (hWF : H.space.PivotWF) :
    ∀ i, i < H.dimension →
      H.coordinates (H.gens.getD i dummyHom)
        = (List.range H.dimension).map (fun t => if t = i then (1 : ℤ) else 0) := by
  intro i hi
  have hib : i < H.space.basis.length := hi
  have higen : i < H.gens.length := by
    rw [HomSpace.gens, List.length_map]
    exact hib
  have hgen : H.gens.getD i dummyHom
      = ⟨H.dom.quiver, H.dom, H.codom, H.space.basis[i]⟩ := by
    have h1 : H.gens[i] = ⟨H.dom.quiver, H.dom, H.codom, H.space.basis[i]⟩ := by
      simp [HomSpace.gens]
    rw [List.getD_eq_getElem?_getD, List.getElem?_eq_getElem higen]
    rw [Option.getD_some, h1]
  rw [hgen, HomSpace.coordinates, EchelonSpace.coordinates]
  apply List.ext_getElem
  · rw [List.length_map, List.length_map, List.length_range, hWF.1, HomSpace.dimension]
  · intro j hj1 hj2
    rw [List.getElem_map, List.getElem_map, List.getElem_range]
    have hjp : j < H.space.pivots.length := by
      rw [List.length_map] at hj1
      exact hj1
    have hdelta := hWF.2 i hib j hjp
    have hpiv : H.space.pivots.getD j 0 = H.space.pivots[j] := by
      rw [List.getD_eq_getElem?_getD, List.getElem?_eq_getElem hjp, Option.getD_some]
    have hbas : H.space.basis.getD i [] = H.space.basis[i] := by
      rw [List.getD_eq_getElem?_getD, List.getElem?_eq_getElem hib, Option.getD_some]
    rw [hpiv, hbas] at hdelta
    rw [hdelta]
    by_cases hij : i = j
    · rw [if_pos hij, if_pos hij.symm]
    · rw [if_neg hij, if_neg (fun hji => hij hji.symm)]

/-- C7 witness: the round trip evaluated on a concrete hom space with a
one-dimensional kernel space. -/
theorem C7_coordinates_of_gens_witness :
    (mkHomSpace oneKernel dummyRep dummyRep).coordinates
        ((mkHomSpace oneKernel dummyRep dummyRep).gens.getD 0 dummyHom)
      = (List.range (mkHomSpace oneKernel dummyRep dummyRep).dimension).map
          (fun t => if t = 0 then (1 : ℤ) else 0) :=
  C7_coordinates_of_gens oneKernel dummyRep dummyRep
    (mkHomSpace oneKernel dummyRep dummyRep) rfl
    (by constructor
        · rfl
        · decide)
    0 (by decide)

/-- C8: calling a hom space with no argument, with `None`, or with the
integer `0` builds the zero homomorphism: the element constructor replaces
`None` and `0` by the empty dictionary before delegating to `QuiverRepHom`,
every vertex is assigned the zero map, and the resulting coordinate vector is
the zero vector. -/
theorem C8_zero_element_constructor (H : HomSpace) :
    H.elementConstructor none
        = Except.ok ⟨H.dom.quiver, H.dom, H.codom,
            vecOf H.dom H.codom (dictMaps H.dom H.codom [])⟩ ∧
    H.elementConstructor (some (ElemData.int 0)) = H.elementConstructor none ∧
    (∀ v, dictMaps H.dom H.codom [] v
        = zeroMat (H.dom.dimAt v) (H.codom.dimAt v)) ∧
    vecOf H.dom H.codom (dictMaps H.dom H.codom [])
        = List.replicate (varstartLast H.dom H.codom) 0 := by
  refine ⟨?_, rfl, fun v => rfl, vecOf_zero H.dom H.codom⟩
  show QuiverRepHom.make H.dom H.codom (dictMaps H.dom H.codom []) = _
  rw [QuiverRepHom.make, if_pos (commutes_zero H.dom H.codom)]

/-- C9: the membership test of a hom space is a total function on arbitrary
arguments; it returns `True` exactly when the argument is a `QuiverRepHom`
whose quiver equals that of the hom space, whose domain and codomain are
those of the hom space, and whose coordinate vector lies in the kernel of the
coefficient matrix; on every other argument it returns `False`. -/
theorem C9_contains_characterisation (H : HomSpace) (x : PyObject) :
    H.containsObj x = true ↔
      ∃ f, x = PyObject.hom f ∧ quiverPyEq H.quiv f.quiver = true ∧
        H.dom = f.domain ∧ H.codom = f.codomain ∧
        kernelContains (coefMat H.dom H.codom) f.vector = true := by
  cases x with
  | other y =>
    rw [HomSpace.containsObj]
    constructor
    · intro h
      exact absurd h (by simp)
    · rintro ⟨f, hf, -⟩
      exact absurd hf (by simp)
  | hom f =>
    rw [HomSpace.containsObj]
    by_cases hcond : quiverPyEq H.quiv f.quiver = false ∨ H.dom ≠ f.domain ∨
        H.codom ≠ f.codomain
    · rw [if_pos hcond]
      constructor
      · intro h
        exact absurd h (by simp)
      · rintro ⟨g, hg, hq, hd, hc, -⟩
        injection hg with hg
        subst hg
        rcases hcond with h | h | h
        · rw [hq] at h
          exact absurd h (by simp)
        · exact absurd hd h
        · exact absurd hc h
    · rw [if_neg hcond]
      push_neg at hcond
      rcases hcond with ⟨hq0, hd, hc⟩
      have hq : quiverPyEq H.quiv f.quiver = true := by simpa using hq0
      constructor
      · intro h
        exact ⟨f, rfl, hq, hd, hc, h⟩
      · rintro ⟨g, hg, -, -, -, h⟩
        injection hg with hg
        subst hg
        exact h

/-- C10: the public attribute `identity` exists on a hom space if and only if
the domain and codomain passed to the constructor are the very same object;
for a hom space built from two distinct but mathematically equal
representations, accessing `identity` raises an `AttributeError`, even
though the identity map is a valid element of the space (`__contains__`
returns `True` for it). -/
theorem C10_identity_attribute_iff_same_object :
    (∀ (kernelOf : Mat → EchelonSpace) (M N : QuiverRep) (H : HomSpace),
      QuiverHomSpace_init kernelOf M N = Except.ok H →
      (H.hasIdentityAttr = true ↔ M = N)) ∧
    (eqTwinDom ≠ eqTwinCod ∧
      eqTwinDom.quiver = eqTwinCod.quiver ∧ eqTwinDom.ring = eqTwinCod.ring ∧
      eqTwinDom.dims = eqTwinCod.dims ∧ eqTwinDom.maps = eqTwinCod.maps) ∧
    twinHomSpace.accessIdentity = Except.error "AttributeError: identity" ∧
    twinHomSpace.containsObj (PyObject.hom idHomTwin) = true := by
  refine ⟨?_, by decide, by rfl, by decide⟩
  intro kernelOf M N H h
  rw [QuiverHomSpace_init] at h
  by_cases h1 : quiverPyEq M.quiver N.quiver = true
  · by_cases h2 : ringPyEq N.ring M.ring = true
    · rw [if_neg (by simp [h1]), if_neg (by simp [h2])] at h
      have hH : H = mkHomSpace kernelOf M N := by
        injection h with h
        exact h.symm
      subst hH
      show decide (M = N) = true ↔ M = N
      simp
    · rw [Bool.not_eq_true] at h2
      rw [if_neg (by simp [h1]), if_pos (by simp [h2])] at h
      exact absurd h (by simp)
  · rw [Bool.not_eq_true] at h1
    rw [if_pos (by simp [h1])] at h
    exact absurd h (by simp)

/-- C10 witness: a hom space built with domain and codomain the same object
does carry the `identity` attribute. -/
theorem C10_identity_attribute_iff_same_object_witness :
    homSelf.hasIdentityAttr = true :=
  (C10_identity_attribute_iff_same_object.1 trivKernel selfRep selfRep
    homSelf rfl).mpr rfl

/-! ## The loop-free case: the kernel is exactly the homomorphism space

The claims C1 and C4 exhibit the overwrite that loop edges cause.  The
following development proves the positive counterpart: over a quiver without
loop edges the column of the coefficient matrix filled for `(e, i, j)` has
pairwise distinct write positions, its product with the flattened vector of a
family of vertex maps is `Sum_k A_ik*Y_kj - Sum_k X_ik*B_kj`, and membership
in the kernel is exactly the commutativity of the vertex maps with every edge
map — confining the defect exhibited in C1 and C4 to loop edges. -/

/-- The value left at a single row by a write list of one column (no column
tags), later writes replacing earlier ones. -/
def applyWrites (ws : List (Nat × ℤ)) (r : Nat) : ℤ :=
  ws.foldl (fun acc w => if w.1 = r then w.2 else acc) 0

theorem lastWrite_eq_applyWrites_filter (tr : List (Nat × Nat × ℤ)) (r c : Nat) :
    lastWrite tr r c
      = applyWrites ((tr.filter (fun w => decide (w.2.1 = c))).map
          (fun w => (w.1, w.2.2))) r := by
  rw [lastWrite, applyWrites]
  generalize (0 : ℤ) = init
  induction tr generalizing init with
  | nil => simp
  | cons w tr ih =>
    by_cases hc : w.2.1 = c
    · rw [List.foldl_cons, List.filter_cons_of_pos (by simpa using hc),
        List.map_cons, List.foldl_cons]
      by_cases hr : w.1 = r
      · rw [if_pos ⟨hr, hc⟩, if_pos hr]
        exact ih _
      · rw [if_neg (by simp [hr]), if_neg hr]
        exact ih _
    · rw [List.foldl_cons, List.filter_cons_of_neg (by simpa using hc),
        if_neg (by simp [hc])]
      exact ih _

/-- For a column index the loop visits, the entry of the built coefficient
matrix is the result of the writes of exactly that column's iteration. -/
theorem coefMat_entry_eq_applyWrites (M N : QuiverRep) (r c : Nat)
    (hr : r < varstartLast M N) (hc : c < (colsList M N).length)
    (hc2 : c < eqs M N) :
    (coefMat M N).entry r c = applyWrites ((colsList M N).getD c []) r := by
  have hrow : (coefMat M N).rows.getD r []
      = (List.range (eqs M N)).map (fun c => lastWrite (fillTrace M N).1 r c) := by
    show ((List.range (varstartLast M N)).map (fun r =>
        (List.range (eqs M N)).map (fun c => lastWrite (fillTrace M N).1 r c))).getD r []
      = _
    rw [List.getD_eq_getElem?_getD, List.getElem?_map, List.getElem?_range hr]
    rfl
  show ((coefMat M N).rows.getD r []).getD c 0 = _
  rw [hrow]
  rw [List.getD_eq_getElem?_getD, List.getElem?_map, List.getElem?_range hc2]
  show lastWrite (fillTrace M N).1 r c = _
  rw [lastWrite_eq_applyWrites_filter]
  congr 1
  rw [fillTrace_eq]
  have h := filter_tagFrom (colsList M N) 0 c hc
  simp only [Nat.zero_add] at h
  rw [h, List.map_map]
  have : ((fun w : Nat × Nat × ℤ => (w.1, w.2.2)) ∘ fun w : Nat × ℤ => (w.1, c, w.2))
      = id := by
    funext w
    rfl
  rw [this, List.map_id]

theorem listSum_eq_finsetSum (n : Nat) (F : Nat → ℤ) :
    ((List.range n).map F).sum = ∑ r ∈ Finset.range n, F r := by
  induction n with
  | zero => simp
  | succ n ih =>
    rw [List.range_succ, List.map_append, List.sum_append, Finset.sum_range_succ, ih]
    simp

theorem foldl_write_of_not_mem (ws : List (Nat × ℤ)) (r : Nat) (init : ℤ)
    (h : r ∉ ws.map Prod.fst) :
    ws.foldl (fun acc w => if w.1 = r then w.2 else acc) init = init := by
  induction ws generalizing init with
  | nil => rfl
  | cons w ws ih =>
    rw [List.map_cons] at h
    rw [List.foldl_cons, if_neg (fun hr => h (by simp [hr]))]
    exact ih init (fun hm => h (List.mem_cons_of_mem _ hm))

/-- Multiplying a vector against the residue of a write list with pairwise
distinct rows, summed over all rows, is the same as summing over the writes
themselves. -/
theorem range_dot_applyWrites (n : Nat) (vec : List ℤ) (ws : List (Nat × ℤ))
    (hnd : (ws.map Prod.fst).Nodup) (hlt : ∀ w ∈ ws, w.1 < n) :
    ((List.range n).map (fun r => vec.getD r 0 * applyWrites ws r)).sum
      = (ws.map (fun w => vec.getD w.1 0 * w.2)).sum := by
  induction ws with
  | nil =>
    rw [List.map_nil, List.sum_nil]
    apply List.sum_eq_zero
    intro x hx
    rcases List.mem_map.1 hx with ⟨r, _, rfl⟩
    rw [applyWrites, List.foldl_nil, mul_zero]
  | cons w ws ih =>
    have hndtail : (ws.map Prod.fst).Nodup := (List.nodup_cons.1 (by simpa using hnd)).2
    have hhead : w.1 ∉ ws.map Prod.fst := (List.nodup_cons.1 (by simpa using hnd)).1
    have happ : ∀ r, applyWrites (w :: ws) r
        = if w.1 = r then w.2 else applyWrites ws r := by
      intro r
      rw [applyWrites, List.foldl_cons]
      by_cases hr : w.1 = r
      · rw [if_pos hr, if_pos hr]
        subst hr
        exact foldl_write_of_not_mem ws w.1 w.2 hhead
      · rw [if_neg hr, if_neg hr]
        rfl
    have hw1 : w.1 ∈ Finset.range n := Finset.mem_range.2 (hlt w (by simp))
    have hsplit : ∑ r ∈ Finset.range n, vec.getD r 0 * applyWrites (w :: ws) r
        = vec.getD w.1 0 * w.2
          + ∑ r ∈ (Finset.range n).erase w.1, vec.getD r 0 * applyWrites ws r := by
      rw [← Finset.add_sum_erase _ _ hw1]
      congr 1
      · rw [happ w.1, if_pos rfl]
      · apply Finset.sum_congr rfl
        intro r hr
        rw [happ r, if_neg (fun h => (Finset.mem_erase.1 hr).1 h.symm)]
    have hsplit2 : ∑ r ∈ Finset.range n, vec.getD r 0 * applyWrites ws r
        = vec.getD w.1 0 * applyWrites ws w.1
          + ∑ r ∈ (Finset.range n).erase w.1, vec.getD r 0 * applyWrites ws r :=
      (Finset.add_sum_erase _ _ hw1).symm
    have hzero : applyWrites ws w.1 = 0 :=
      foldl_write_of_not_mem ws w.1 0 hhead
    have ihv := ih hndtail (fun w' hw' => hlt w' (List.mem_cons_of_mem _ hw'))
    rw [listSum_eq_finsetSum] at ihv
    rw [hsplit2, hzero, mul_zero, zero_add] at ihv
    rw [listSum_eq_finsetSum, hsplit, List.map_cons, List.sum_cons, ihv]

theorem sum_map_neg {α : Type} (l : List α) (f : α → ℤ) :
    (l.map (fun x => - f x)).sum = - (l.map f).sum := by
  induction l with
  | nil => simp
  | cons x l ih => rw [List.map_cons, List.sum_cons, List.map_cons, List.sum_cons, ih]; ring

/-- Positional access into a concatenation of blocks: the entry at offset
`off` inside the `t`-th block sits at position (sum of the lengths of the
earlier blocks) + `off` of the flattened list. -/
theorem flatMap_getD_block {α : Type} (xs : List α) (g : α → List ℤ) :
    ∀ (t : Nat) (ht : t < xs.length) (off : Nat),
      off < (g (xs.get ⟨t, ht⟩)).length →
      (xs.flatMap g).getD (((xs.take t).map (fun x => (g x).length)).sum + off) 0
        = (g (xs.get ⟨t, ht⟩)).getD off 0 := by
  induction xs with
  | nil =>
    intro t ht
    exact absurd ht (by simp)
  | cons x xs ih =>
    intro t ht off hoff
    cases t with
    | zero =>
      rw [List.take_zero, List.map_nil, List.sum_nil, Nat.zero_add,
        List.flatMap_cons]
      have hoff' : off < (g x).length := hoff
      have hget : (x :: xs).get ⟨0, ht⟩ = x := rfl
      rw [hget, List.getD_eq_getElem?_getD, List.getD_eq_getElem?_getD,
        List.getElem?_append_left hoff']
    | succ t =>
      have ht' : t < xs.length := by simpa using ht
      rw [List.take_succ_cons, List.map_cons, List.sum_cons, List.flatMap_cons]
      have hpos : (g x).length + (((xs.take t).map (fun x => (g x).length)).sum + off)
          = (g x).length + ((xs.take t).map (fun x => (g x).length)).sum + off := by
        omega
      rw [← hpos]
      rw [List.getD_eq_getElem?_getD, List.getElem?_append_right (by omega)]
      have hsub : (g x).length + (((xs.take t).map (fun x => (g x).length)).sum + off)
          - (g x).length = ((xs.take t).map (fun x => (g x).length)).sum + off := by
        omega
      rw [hsub, ← List.getD_eq_getElem?_getD]
      exact ih t ht' off (by simpa using hoff)

/-- The length of the block of one vertex inside the flattened coordinate
vector. -/
theorem vertexBlock_length (M N : QuiverRep) (f : Vertex → Mat) (v : Vertex) :
    ((List.range (M.dimAt v)).flatMap (fun r =>
      (List.range (N.dimAt v)).map (fun c => (f v).entry r c))).length
      = M.dimAt v * N.dimAt v := by
  rw [List.flatMap, List.length_flatten, List.map_map]
  have hc : (List.length ∘ fun r => List.map (fun c => (f v).entry r c)
      (List.range (N.dimAt v))) = fun _ : Nat => N.dimAt v := by
    funext r
    simp [Function.comp]
  rw [hc]
  exact sum_const_range (M.dimAt v) (N.dimAt v)

/-- The coordinate of the flattened vector at the position of variable
`(v, r, c)` is the `(r, c)` entry of the vertex map at `v`. -/
theorem vecOf_getD (M N : QuiverRep) (f : Vertex → Mat)
    {v : Vertex} (hv : v ∈ M.quiver.vertices) {r c : Nat}
    (hr : r < M.dimAt v) (hc : c < N.dimAt v) :
    (vecOf M N f).getD
        (varstartAt M N (vertIndex M.quiver v) + (r * N.dimAt v + c)) 0
      = (f v).entry r c := by
  have hidx : vertIndex M.quiver v < M.quiver.vertices.length :=
    List.indexOf_lt_length.2 hv
  have hvget : M.quiver.vertices.get ⟨vertIndex M.quiver v, hidx⟩ = v := by
    rw [List.get_eq_getElem]
    exact List.getElem_indexOf hidx
  have hsum : ((M.quiver.vertices.take (vertIndex M.quiver v)).map
      (fun v' => ((List.range (M.dimAt v')).flatMap (fun r =>
        (List.range (N.dimAt v')).map (fun c => (f v').entry r c))).length)).sum
      = varstartAt M N (vertIndex M.quiver v) := by
    rw [varstartAt, blockSizes, ← List.map_take]
    congr 1
    apply List.map_congr_left
    intro v' _
    exact vertexBlock_length M N f v'
  have hoff : r * N.dimAt v + c
      < ((List.range (M.dimAt v)).flatMap (fun r =>
          (List.range (N.dimAt v)).map (fun c => (f v).entry r c))).length := by
    rw [vertexBlock_length]
    exact addmul_lt hr hc
  have houter := flatMap_getD_block M.quiver.vertices
    (fun v' => (List.range (M.dimAt v')).flatMap (fun r =>
      (List.range (N.dimAt v')).map (fun c => (f v').entry r c)))
    (vertIndex M.quiver v) hidx (r * N.dimAt v + c) (by rw [hvget]; exact hoff)
  rw [hsum, hvget] at houter
  rw [vecOf, houter]
  have hrget : (List.range (M.dimAt v)).get ⟨r, by simpa using hr⟩ = r := by
    rw [List.get_eq_getElem]
    exact List.getElem_range r _
  have hinsum : (((List.range (M.dimAt v)).take r).map
      (fun r' => ((List.range (N.dimAt v)).map (fun c => (f v).entry r' c)).length)).sum
      = r * N.dimAt v := by
    rw [List.take_range]
    have hmin : min r (M.dimAt v) = r := by omega
    rw [hmin]
    have hconst : (List.range r).map
        (fun r' => ((List.range (N.dimAt v)).map (fun c => (f v).entry r' c)).length)
        = (List.range r).map (fun _ => N.dimAt v) := by
      apply List.map_congr_left
      intro r' _
      rw [List.length_map, List.length_range]
    rw [hconst]
    exact sum_const_range r (N.dimAt v)
  have hinoff : c < ((List.range (N.dimAt v)).map
      (fun c => (f v).entry ((List.range (M.dimAt v)).get ⟨r, by simpa using hr⟩) c)).length := by
    rw [List.length_map, List.length_range]
    exact hc
  have hinner := flatMap_getD_block (List.range (M.dimAt v))
    (fun r' => (List.range (N.dimAt v)).map (fun c => (f v).entry r' c))
    r (by simpa using hr) c hinoff
  rw [hinsum, hrget] at hinner
  rw [hinner]
  rw [List.getD_eq_getElem?_getD, List.getElem?_map, List.getElem?_range hc]
  rfl

theorem sum_take_mono (l : List Nat) {i j : Nat} (h : i ≤ j) :
    (l.take i).sum ≤ (l.take j).sum := by
  have hsplit : l.take j = (l.take j).take i ++ (l.take j).drop i :=
    (List.take_append_drop i (l.take j)).symm
  rw [hsplit, List.sum_append, List.take_take]
  have hmin : min i j = i := by omega
  rw [hmin]
  omega

theorem varstartAt_succ (M N : QuiverRep) {v : Vertex}
    (hv : v ∈ M.quiver.vertices) :
    varstartAt M N (vertIndex M.quiver v + 1)
      = varstartAt M N (vertIndex M.quiver v) + M.dimAt v * N.dimAt v := by
  have hidx : vertIndex M.quiver v < M.quiver.vertices.length :=
    List.indexOf_lt_length.2 hv
  have hidx' : vertIndex M.quiver v < (blockSizes M N).length := by
    simpa [blockSizes] using hidx
  have hvget : M.quiver.vertices[vertIndex M.quiver v] = v :=
    List.getElem_indexOf hidx
  have hget : (blockSizes M N)[vertIndex M.quiver v] = M.dimAt v * N.dimAt v := by
    simp only [blockSizes, List.getElem_map, hvget]
  rw [varstartAt, varstartAt, List.sum_take_succ _ _ hidx']
  simp [hget]

/-- Distinct vertices have disjoint variable blocks. -/
theorem block_disjoint (M N : QuiverRep) (hnd : M.quiver.vertices.Nodup)
    {v v' : Vertex} (hv : v ∈ M.quiver.vertices) (hv' : v' ∈ M.quiver.vertices)
    (hne : v ≠ v') {a b : Nat} (ha : a < M.dimAt v * N.dimAt v)
    (hb : b < M.dimAt v' * N.dimAt v') :
    varstartAt M N (vertIndex M.quiver v) + a
      ≠ varstartAt M N (vertIndex M.quiver v') + b := by
  have hidx : vertIndex M.quiver v < M.quiver.vertices.length :=
    List.indexOf_lt_length.2 hv
  have hidx' : vertIndex M.quiver v' < M.quiver.vertices.length :=
    List.indexOf_lt_length.2 hv'
  have hne_idx : vertIndex M.quiver v ≠ vertIndex M.quiver v' := by
    intro h
    apply hne
    have h1 : M.quiver.vertices[vertIndex M.quiver v] = v :=
      List.getElem_indexOf hidx
    have h2 : M.quiver.vertices[vertIndex M.quiver v'] = v' :=
      List.getElem_indexOf hidx'
    rw [← h1, ← h2]
    exact congrArg (fun t => M.quiver.vertices.getD t 0) h |>.trans (by
      rw [List.getD_eq_getElem?_getD, List.getElem?_eq_getElem hidx']
      rfl) |>.symm.trans (by
      rw [List.getD_eq_getElem?_getD, List.getElem?_eq_getElem hidx]
      rfl) |>.symm
  rcases Nat.lt_or_ge (vertIndex M.quiver v) (vertIndex M.quiver v') with hlt | hge
  · have h1 : varstartAt M N (vertIndex M.quiver v) + a
        < varstartAt M N (vertIndex M.quiver v + 1) := by
      rw [varstartAt_succ M N hv]
      omega
    have h2 : varstartAt M N (vertIndex M.quiver v + 1)
        ≤ varstartAt M N (vertIndex M.quiver v') :=
      sum_take_mono _ hlt
    omega
  · have hlt' : vertIndex M.quiver v' < vertIndex M.quiver v := by omega
    have h1 : varstartAt M N (vertIndex M.quiver v') + b
        < varstartAt M N (vertIndex M.quiver v' + 1) := by
      rw [varstartAt_succ M N hv']
      omega
    have h2 : varstartAt M N (vertIndex M.quiver v' + 1)
        ≤ varstartAt M N (vertIndex M.quiver v) :=
      sum_take_mono _ hlt'
    omega

/-- Over a quiver without loop edges, the write positions of one column are
pairwise distinct: the two inner loops write into the disjoint blocks of the
source and target vertices. -/
theorem colWrites_rows_nodup (M N : QuiverRep) (hM : M.WF) (hN : N.WF)
    (hq : quiverPyEq M.quiver N.quiver = true) {e : Edge} {i j : Nat}
    (hnl : e.src ≠ e.tgt) (he : e ∈ M.quiver.edges)
    (hi : i < (M.mapAt e).nrows) (hj : j < (N.mapAt e).ncols) :
    ((colWrites M N e i j).map Prod.fst).Nodup := by
  have hedges : M.quiver.edges = N.quiver.edges := by
    simpa [quiverPyEq] using And.right (by simpa [quiverPyEq] using hq)
  have heN : e ∈ N.quiver.edges := by rw [← hedges]; exact he
  have hXr := (hM.2.2 e he).1
  have hXc := (hM.2.2 e he).2
  have hYr := (hN.2.2 e heN).1
  have hYc := (hN.2.2 e heN).2
  rw [colWrites, List.map_append, List.map_map, List.map_map]
  have hf1 : ((fun w : Nat × ℤ => w.1) ∘ fun k =>
      (varstartAt M N (vertIndex M.quiver e.src) + i * (N.mapAt e).nrows + k,
        (N.mapAt e).entry k j))
      = fun k => varstartAt M N (vertIndex M.quiver e.src)
          + i * (N.mapAt e).nrows + k := rfl
  have hf2 : ((fun w : Nat × ℤ => w.1) ∘ fun k =>
      (varstartAt M N (vertIndex M.quiver e.tgt) + k * (N.mapAt e).ncols + j,
        - (M.mapAt e).entry i k))
      = fun k => varstartAt M N (vertIndex M.quiver e.tgt)
          + k * (N.mapAt e).ncols + j := rfl
  rw [hf1, hf2]
  have hd1 : ((List.range (N.mapAt e).nrows).map
      (fun k => varstartAt M N (vertIndex M.quiver e.src)
        + i * (N.mapAt e).nrows + k)).Nodup := by
    apply List.Nodup.map ?_ (List.nodup_range _)
    intro a b hab
    dsimp only at hab
    omega
  have hd2 : ((List.range (M.mapAt e).ncols).map
      (fun k => varstartAt M N (vertIndex M.quiver e.tgt)
        + k * (N.mapAt e).ncols + j)).Nodup := by
    apply List.Nodup.map ?_ (List.nodup_range _)
    intro a b hab
    dsimp only at hab
    have hpos : 0 < (N.mapAt e).ncols := by omega
    have heq : a * (N.mapAt e).ncols = b * (N.mapAt e).ncols := by omega
    exact Nat.eq_of_mul_eq_mul_right hpos heq
  apply List.Nodup.append hd1 hd2
  intro a ha hb
  rcases List.mem_map.1 ha with ⟨k1, hk1, rfl⟩
  rcases List.mem_map.1 hb with ⟨k2, hk2, hab⟩
  have hk1' : k1 < (N.mapAt e).nrows := List.mem_range.1 hk1
  have hk2' : k2 < (M.mapAt e).ncols := List.mem_range.1 hk2
  have hoff1 : i * (N.mapAt e).nrows + k1 < M.dimAt e.src * N.dimAt e.src := by
    rw [← hXr, ← hYr]
    exact addmul_lt hi hk1'
  have hoff2 : k2 * (N.mapAt e).ncols + j < M.dimAt e.tgt * N.dimAt e.tgt := by
    rw [← hXc, ← hYc]
    exact addmul_lt hk2' hj
  have hddj := block_disjoint M N hM.1 (hM.2.1 e he).2 (hM.2.1 e he).1
    (fun h => hnl h.symm) hoff2 hoff1
  apply hddj
  omega

/-- Over a quiver without loop edges, the product of the flattened vector of
a family of vertex maps with the column filled for `(e, i, j)` is exactly
`Sum_k A_ik*Y_kj - Sum_k X_ik*B_kj`, the equation stated in the comment of
`__init__`. -/
theorem column_dot_eq (M N : QuiverRep) (hM : M.WF) (hN : N.WF)
    (hq : quiverPyEq M.quiver N.quiver = true) (f : Vertex → Mat)
    {e : Edge} {i j : Nat} (hnl : e.src ≠ e.tgt) (he : e ∈ M.quiver.edges)
    (hi : i < (M.mapAt e).nrows) (hj : j < (N.mapAt e).ncols) :
    ((List.range (varstartLast M N)).map (fun r =>
        (vecOf M N f).getD r 0 * applyWrites (colWrites M N e i j) r)).sum
      = ((List.range (N.mapAt e).nrows).map
          (fun k => (f e.src).entry i k * (N.mapAt e).entry k j)).sum
        - ((List.range (M.mapAt e).ncols).map
          (fun k => (M.mapAt e).entry i k * (f e.tgt).entry k j)).sum := by
  have hedges : M.quiver.edges = N.quiver.edges := by
    simpa [quiverPyEq] using And.right (by simpa [quiverPyEq] using hq)
  have heN : e ∈ N.quiver.edges := by rw [← hedges]; exact he
  have hXr := (hM.2.2 e he).1
  have hXc := (hM.2.2 e he).2
  have hYr := (hN.2.2 e heN).1
  have hYc := (hN.2.2 e heN).2
  have hbound : ∀ w ∈ colWrites M N e i j, w.1 < varstartLast M N := by
    intro w hw
    rw [varstartLast_eq_sum]
    exact colWrites_row_lt hM hN hq he hi hj hw
  have hnd := colWrites_rows_nodup M N hM hN hq hnl he hi hj
  rw [range_dot_applyWrites _ _ _ hnd hbound]
  rw [colWrites, List.map_append, List.sum_append, List.map_map, List.map_map]
  have h1 : (List.range (N.mapAt e).nrows).map
      ((fun w : Nat × ℤ => (vecOf M N f).getD w.1 0 * w.2) ∘ fun k =>
        (varstartAt M N (vertIndex M.quiver e.src) + i * (N.mapAt e).nrows + k,
          (N.mapAt e).entry k j))
      = (List.range (N.mapAt e).nrows).map
          (fun k => (f e.src).entry i k * (N.mapAt e).entry k j) := by
    apply List.map_congr_left
    intro k hk
    have hk' : k < (N.mapAt e).nrows := List.mem_range.1 hk
    show (vecOf M N f).getD
        (varstartAt M N (vertIndex M.quiver e.src) + i * (N.mapAt e).nrows + k) 0
        * (N.mapAt e).entry k j
      = (f e.src).entry i k * (N.mapAt e).entry k j
    have hpos : varstartAt M N (vertIndex M.quiver e.src)
          + i * (N.mapAt e).nrows + k
        = varstartAt M N (vertIndex M.quiver e.src)
          + (i * N.dimAt e.src + k) := by
      rw [hYr, Nat.add_assoc]
    rw [hpos, vecOf_getD M N f (hM.2.1 e he).1 (by omega) (by omega)]
  have h2 : (List.range (M.mapAt e).ncols).map
      ((fun w : Nat × ℤ => (vecOf M N f).getD w.1 0 * w.2) ∘ fun k =>
        (varstartAt M N (vertIndex M.quiver e.tgt) + k * (N.mapAt e).ncols + j,
          - (M.mapAt e).entry i k))
      = (List.range (M.mapAt e).ncols).map
          (fun k => - ((M.mapAt e).entry i k * (f e.tgt).entry k j)) := by
    apply List.map_congr_left
    intro k hk
    have hk' : k < (M.mapAt e).ncols := List.mem_range.1 hk
    show (vecOf M N f).getD
        (varstartAt M N (vertIndex M.quiver e.tgt) + k * (N.mapAt e).ncols + j) 0
        * (- (M.mapAt e).entry i k)
      = - ((M.mapAt e).entry i k * (f e.tgt).entry k j)
    have hpos : varstartAt M N (vertIndex M.quiver e.tgt)
          + k * (N.mapAt e).ncols + j
        = varstartAt M N (vertIndex M.quiver e.tgt)
          + (k * N.dimAt e.tgt + j) := by
      rw [hYc, Nat.add_assoc]
    rw [hpos, vecOf_getD M N f (hM.2.1 e he).2 (by omega) (by omega)]
    ring
  rw [h1, h2, sum_map_neg]
  ring

theorem colsList_getD (M N : QuiverRep) (c : Nat)
    (hc : c < (eqnTriples M N).length) :
    (colsList M N).getD c []
      = colWrites M N ((eqnTriples M N).get ⟨c, hc⟩).1
          ((eqnTriples M N).get ⟨c, hc⟩).2.1 ((eqnTriples M N).get ⟨c, hc⟩).2.2 := by
  rw [colsList, List.getD_eq_getElem?_getD, List.getElem?_map,
    List.getElem?_eq_getElem hc]
  simp

theorem eqnTriples_mem (M N : QuiverRep) {e : Edge} {i j : Nat}
    (he : e ∈ M.quiver.edges) (hi : i < (M.mapAt e).nrows)
    (hj : j < (N.mapAt e).ncols) : (e, i, j) ∈ eqnTriples M N := by
  rw [eqnTriples]
  exact List.mem_flatMap.2 ⟨e, he, List.mem_flatMap.2 ⟨i, List.mem_range.2 hi,
    List.mem_map.2 ⟨j, List.mem_range.2 hj, rfl⟩⟩⟩

/-- Over a quiver without loop edges the code computes what it intends to:
the flattened vector of a family of vertex maps lies in the kernel of the
assembled coefficient matrix if and only if the maps commute with every edge
map.  This confines the defect exhibited on the loop quiver to loop edges. -/
theorem kernelContains_iff_commutes_of_no_loops (M N : QuiverRep)
    (hM : M.WF) (hN : N.WF) (hq : quiverPyEq M.quiver N.quiver = true)
    (hnl : ∀ e ∈ M.quiver.edges, e.src ≠ e.tgt) (f : Vertex → Mat) :
    kernelContains (coefMat M N) (vecOf M N f) = true ↔ commutes M N f = true := by
  have hlen2 : (eqnTriples M N).length = eqs M N := eqnTriples_length M N hM hN hq
  have hlenvec : decide ((vecOf M N f).length = (coefMat M N).nrows) = true := by
    rw [decide_eq_true_eq]
    exact vecOf_length M N f
  rw [kernelContains, hlenvec, Bool.true_and, List.all_eq_true,
    commutes, List.all_eq_true]
  have hdot : ∀ (e : Edge) (i j c : Nat), e ∈ M.quiver.edges →
      i < (M.mapAt e).nrows → j < (N.mapAt e).ncols → (hgl : c < (eqnTriples M N).length) →
      (eqnTriples M N).get ⟨c, hgl⟩ = (e, i, j) →
      ((List.range (coefMat M N).nrows).map (fun r =>
          (vecOf M N f).getD r 0 * (coefMat M N).entry r c)).sum
        = ((List.range (N.mapAt e).nrows).map
            (fun k => (f e.src).entry i k * (N.mapAt e).entry k j)).sum
          - ((List.range (M.mapAt e).ncols).map
            (fun k => (M.mapAt e).entry i k * (f e.tgt).entry k j)).sum := by
    intro e i j c he hi hj hgl htr
    have hstep : ((List.range (coefMat M N).nrows).map (fun r =>
        (vecOf M N f).getD r 0 * (coefMat M N).entry r c)).sum
        = ((List.range (varstartLast M N)).map (fun r =>
        (vecOf M N f).getD r 0 * applyWrites (colWrites M N e i j) r)).sum := by
      have hnr : (coefMat M N).nrows = varstartLast M N := rfl
      rw [hnr]
      apply congrArg List.sum
      apply List.map_congr_left
      intro r hr0
      have hr := List.mem_range.1 hr0
      rw [coefMat_entry_eq_applyWrites M N r c hr
        (by rw [colsList_length]; omega) (by omega)]
      rw [colsList_getD M N c hgl, htr]
    rw [hstep]
    exact column_dot_eq M N hM hN hq f (hnl e he) he hi hj
  constructor
  · intro h e he
    rw [List.all_eq_true]
    intro i hi0
    rw [List.all_eq_true]
    intro j hj0
    have hi := List.mem_range.1 hi0
    have hj := List.mem_range.1 hj0
    rw [decide_eq_true_eq]
    have hmem : (e, i, j) ∈ eqnTriples M N := eqnTriples_mem M N he hi hj
    rcases List.mem_iff_getElem.1 hmem with ⟨c, hgl, hcget⟩
    have htr : (eqnTriples M N).get ⟨c, hgl⟩ = (e, i, j) := hcget
    have hceqs : c < eqs M N := by omega
    have hcall := h c (List.mem_range.2 hceqs)
    rw [decide_eq_true_eq] at hcall
    rw [hdot e i j c he hi hj hgl htr] at hcall
    omega
  · intro h c hc0
    have hc : c < eqs M N := List.mem_range.1 hc0
    have hgl : c < (eqnTriples M N).length := by omega
    rw [decide_eq_true_eq]
    have htrmem : (eqnTriples M N).get ⟨c, hgl⟩ ∈ eqnTriples M N := by
      rw [List.get_eq_getElem]
      exact List.getElem_mem hgl
    rcases mem_eqnTriples htrmem with ⟨he, hi, hj⟩
    have h1 := h ((eqnTriples M N).get ⟨c, hgl⟩).1 he
    rw [List.all_eq_true] at h1
    have h2 := h1 ((eqnTriples M N).get ⟨c, hgl⟩).2.1 (List.mem_range.2 hi)
    rw [List.all_eq_true] at h2
    have h3 := h2 ((eqnTriples M N).get ⟨c, hgl⟩).2.2 (List.mem_range.2 hj)
    rw [decide_eq_true_eq] at h3
    have htr : (eqnTriples M N).get ⟨c, hgl⟩
        = (((eqnTriples M N).get ⟨c, hgl⟩).1,
            ((eqnTriples M N).get ⟨c, hgl⟩).2.1,
            ((eqnTriples M N).get ⟨c, hgl⟩).2.2) := rfl
    rw [hdot ((eqnTriples M N).get ⟨c, hgl⟩).1 ((eqnTriples M N).get ⟨c, hgl⟩).2.1
      ((eqnTriples M N).get ⟨c, hgl⟩).2.2 c he hi hj hgl htr]
    omega

/-- A loop-free quiver with one edge from vertex 1 to vertex 2. -/
def pathQuiver : Quiver := ⟨300, [1, 2], [⟨1, 2, 0⟩]⟩

def pathRep : QuiverRep :=
  ⟨300, 300, pathQuiver, ⟨0, 0⟩, [(1, 1), (2, 1)], [(⟨1, 2, 0⟩, ⟨1, 1, [[1]]⟩)]⟩

/-- A concrete instantiation of the loop-free equivalence: over the path
quiver the identity maps commute and their vector is accepted by the
kernel. -/
theorem kernelContains_iff_commutes_demo :
    kernelContains (coefMat pathRep pathRep)
      (vecOf pathRep pathRep (fun _ => ⟨1, 1, [[1]]⟩)) = true :=
  (kernelContains_iff_commutes_of_no_loops pathRep pathRep (by decide) (by decide)
    (by decide) (by decide) (fun _ => ⟨1, 1, [[1]]⟩)).mpr (by decide)

end QuiverHomSpec
